import Mathlib

/-!
Verification of MobileAR core components against their specification.

Each section embeds one part of the C++ source shallowly in Lean:

* `Moments.h` — summed-area table for windowed raw moments;
* `Jet.h` — forward-mode dual numbers;
* `Rotation.h` — quaternion manifold update;
* `EnvironmentBuilder.cpp` — Hamming gate of `Match` and state mutation of
  `AddFrames`;
* `ArUcoTracker.cpp` — id filtering, the PnP dispatch, the pose-log insertion
  policy, the reference-marker gauge invariant, and the shutdown protocol of
  the background bundle-adjustment thread.

Floating point arithmetic of the source is embedded as exact `ℚ` or `ℝ`
arithmetic; external libraries (OpenCV detection, matching, PnP solvers and
the Ceres solver) are parameters of the embedding, never stubbed silently.
-/

namespace MobileAR

/-! ### Moments.h — summed-area table (`Moments<I, J>`) -/

/-- Weight of pixel `(y, x)` in the `Moments<I, J>` table: the term
`power<I>(y) * power<J>(x) * row[x]` accumulated at Moments.h lines 83 and 98. -/
def momentTerm (I J : ℕ) (pix : ℕ → ℕ → ℤ) (y x : ℕ) : ℤ :=
  (y : ℤ) ^ I * (x : ℤ) ^ J * pix y x

/-- Running sum `sum` of the construction loop within row `y`, after the
column-`x` iteration (Moments.h lines 81-85 and 93-99). -/
def rowSum (I J : ℕ) (pix : ℕ → ℕ → ℤ) (y : ℕ) : ℕ → ℤ
  | 0 => momentTerm I J pix y 0
  | x + 1 => rowSum I J pix y x + momentTerm I J pix y (x + 1)

/-- Table entry `s_[y * cols + x]`: the first row copies the running sum, and
each later row adds its running sum to the entry above (Moments.h lines 77-101). -/
def sTable (I J : ℕ) (pix : ℕ → ℕ → ℤ) : ℕ → ℕ → ℤ
  | 0, x => rowSum I J pix 0 x
  | y + 1, x => sTable I J pix y x + rowSum I J pix (y + 1) x

/-- Query region of `Moments::operator()`: corners `(y0, x0)`–`(y1, x1)`,
inclusive, with `0 ≤ x0 ≤ x1` and `0 ≤ y0 ≤ y1` asserted by the constructor
(Moments.h lines 15-43). -/
structure Region where
  y0 : ℕ
  x0 : ℕ
  y1 : ℕ
  x1 : ℕ
deriving DecidableEq

/-- Area `(y1 - y0 + 1) * (x1 - x0 + 1)` of a region (Moments.h line 33). -/
def Region.area (r : Region) : ℕ :=
  (r.y1 - r.y0 + 1) * (r.x1 - r.x0 + 1)

/-- Guarded table access of the query: a table entry, or `0` when either index
is negative (Moments.h lines 120-123). -/
def sGuard (I J : ℕ) (pix : ℕ → ℕ → ℤ) (y x : ℤ) : ℤ :=
  if y < 0 ∨ x < 0 then 0 else sTable I J pix y.toNat x.toNat

/-- Region query `Moments::operator()`: the four-corner inclusion–exclusion
`+ s[y1][x1] - s[y1][x0-1] + s[y0-1][x0-1] - s[y0-1][x1]`
(Moments.h lines 113-124). -/
def momentsQuery (I J : ℕ) (pix : ℕ → ℕ → ℤ) (r : Region) : ℤ :=
  sGuard I J pix r.y1 r.x1
    - sGuard I J pix r.y1 ((r.x0 : ℤ) - 1)
    + sGuard I J pix ((r.y0 : ℤ) - 1) ((r.x0 : ℤ) - 1)
    - sGuard I J pix ((r.y0 : ℤ) - 1) r.x1

/-- Rectangle prefix sum with exclusive bounds, the closed form the table is
shown to compute. -/
def prefixSum (I J : ℕ) (pix : ℕ → ℕ → ℤ) (y x : ℕ) : ℤ :=
  ∑ yp ∈ Finset.range y, ∑ xp ∈ Finset.range x, momentTerm I J pix yp xp

/-- Exact sum of the weighted pixels of a region. -/
def regionSum (I J : ℕ) (pix : ℕ → ℕ → ℤ) (r : Region) : ℤ :=
  ∑ yp ∈ Finset.Icc r.y0 r.y1, ∑ xp ∈ Finset.Icc r.x0 r.x1, momentTerm I J pix yp xp

/-! ### Jet.h — forward-mode dual numbers -/

/-- Dual number of Jet.h: a scalar part `s` and a tangent part `e` with `n`
components (Jet.h lines 11-48). -/
structure Jet (n : ℕ) where
  s : ℝ
  e : Fin n → ℝ

noncomputable section

/-- Constructor `Jet(s_)`: a constant with zero tangent (Jet.h lines 21-25). -/
def Jet.scalar (n : ℕ) (c : ℝ) : Jet n := ⟨c, fun _ => 0⟩

/-- Constructor `Jet(s_, i)`: value `s_` with a unit tangent seeded in
dimension `i` (Jet.h lines 27-31). -/
def Jet.seed (n : ℕ) (c : ℝ) (i : Fin n) : Jet n := ⟨c, fun j => if j = i then 1 else 0⟩

/-- Jet addition (Jet.h lines 67-70). -/
def Jet.add {n : ℕ} (x y : Jet n) : Jet n := ⟨x.s + y.s, fun i => x.e i + y.e i⟩

/-- Jet subtraction (Jet.h lines 73-76). -/
def Jet.sub {n : ℕ} (x y : Jet n) : Jet n := ⟨x.s - y.s, fun i => x.e i - y.e i⟩

/-- Jet multiplication, the product rule (Jet.h lines 51-54). -/
def Jet.mul {n : ℕ} (x y : Jet n) : Jet n :=
  ⟨x.s * y.s, fun i => x.s * y.e i + y.s * x.e i⟩

/-- Jet division: scalar `s = x.s / y.s`, tangent `(x.e - y.e * s) / y.s`
(Jet.h lines 57-64). -/
def Jet.div {n : ℕ} (x y : Jet n) : Jet n :=
  ⟨x.s / y.s, fun i => (x.e i - y.e i * (x.s / y.s)) / y.s⟩

/-- Jet square root (Jet.h lines 107-114). -/
def Jet.sqrtJ {n : ℕ} (x : Jet n) : Jet n :=
  ⟨Real.sqrt x.s, fun i => x.e i / (2 * Real.sqrt x.s)⟩

/-- Jet sine (Jet.h lines 116-122). -/
def Jet.sinJ {n : ℕ} (x : Jet n) : Jet n :=
  ⟨Real.sin x.s, fun i => Real.cos x.s * x.e i⟩

/-- Jet cosine (Jet.h lines 124-130). -/
def Jet.cosJ {n : ℕ} (x : Jet n) : Jet n :=
  ⟨Real.cos x.s, fun i => -Real.sin x.s * x.e i⟩

end

/-- Expressions over the operator set that Jet.h overloads. -/
inductive JetExpr (n : ℕ) where
  | var (i : Fin n)
  | lit (c : ℝ)
  | add (a b : JetExpr n)
  | sub (a b : JetExpr n)
  | mul (a b : JetExpr n)
  | div (a b : JetExpr n)
  | sqrtE (a : JetExpr n)
  | sinE (a : JetExpr n)
  | cosE (a : JetExpr n)

/-- Plain real evaluation of an expression. -/
noncomputable def evalExpr {n : ℕ} : JetExpr n → (Fin n → ℝ) → ℝ
  | .var i, x => x i
  | .lit c, _ => c
  | .add a b, x => evalExpr a x + evalExpr b x
  | .sub a b, x => evalExpr a x - evalExpr b x
  | .mul a b, x => evalExpr a x * evalExpr b x
  | .div a b, x => evalExpr a x / evalExpr b x
  | .sqrtE a, x => Real.sqrt (evalExpr a x)
  | .sinE a, x => Real.sin (evalExpr a x)
  | .cosE a, x => Real.cos (evalExpr a x)

/-- Forward-mode evaluation: each input dimension enters as a jet seeded with
a unit tangent, and the Jet.h operators propagate the tangents. -/
noncomputable def jetEval {n : ℕ} : JetExpr n → (Fin n → ℝ) → Jet n
  | .var i, x => Jet.seed n (x i) i
  | .lit c, _ => Jet.scalar n c
  | .add a b, x => (jetEval a x).add (jetEval b x)
  | .sub a b, x => (jetEval a x).sub (jetEval b x)
  | .mul a b, x => (jetEval a x).mul (jetEval b x)
  | .div a b, x => (jetEval a x).div (jetEval b x)
  | .sqrtE a, x => (jetEval a x).sqrtJ
  | .sinE a, x => (jetEval a x).sinJ
  | .cosE a, x => (jetEval a x).cosJ

/-- Side conditions of the claim: divisors nonzero and square-root arguments
positive at the evaluation point. -/
def exprOk {n : ℕ} : JetExpr n → (Fin n → ℝ) → Prop
  | .var _, _ => True
  | .lit _, _ => True
  | .add a b, x => exprOk a x ∧ exprOk b x
  | .sub a b, x => exprOk a x ∧ exprOk b x
  | .mul a b, x => exprOk a x ∧ exprOk b x
  | .div a b, x => exprOk a x ∧ exprOk b x ∧ evalExpr b x ≠ 0
  | .sqrtE a, x => exprOk a x ∧ 0 < evalExpr a x
  | .sinE a, x => exprOk a x
  | .cosE a, x => exprOk a x

/-! ### Rotation.h — quaternion manifold update -/

noncomputable section

/-- Euclidean norm of the 3-vector tangent `delta` (Rotation.h line 29). -/
def deltaNorm (d : Fin 3 → ℝ) : ℝ := Real.sqrt (d 0 ^ 2 + d 1 ^ 2 + d 2 ^ 2)

/-- Quaternion `tmp = (cos |δ|, sin |δ| / |δ| * δ)` built by `Plus`
(Rotation.h lines 35-41). -/
def expQuat (d : Fin 3 → ℝ) : Quaternion ℝ :=
  ⟨Real.cos (deltaNorm d),
   Real.sin (deltaNorm d) / deltaNorm d * d 0,
   Real.sin (deltaNorm d) / deltaNorm d * d 1,
   Real.sin (deltaNorm d) / deltaNorm d * d 2⟩

/-- Manifold update `QuaternionParametrization::Plus` (Rotation.h lines 20-45):
for `|δ| < 1e-10` it copies `x`, otherwise it returns `tmp * x`. -/
def quatPlus (x : Quaternion ℝ) (d : Fin 3 → ℝ) : Quaternion ℝ :=
  if deltaNorm d < 1e-10 then x else expQuat d * x

end

/-! ### EnvironmentBuilder.cpp — Hamming-distance gate of `Match` -/

/-- Constant `kMinMatches` (EnvironmentBuilder.cpp line 18). -/
def kMinMatches : ℕ := 25

/-- Constant `kMaxHammingDistance` (EnvironmentBuilder.cpp line 22); the
Hamming distances of the binary ORB descriptors are integers, so distances
are embedded as `ℤ` and the cap `20.0f` as `20`. -/
def kMaxHammingDistance : ℤ := 20

/-- Computable minimum mirroring `std::min`. -/
def minD (a b : ℤ) : ℤ := if b < a then b else a

/-- Insertion into a list sorted by ascending distance. -/
def insertByDistance (x : ℤ) : List ℤ → List ℤ
  | [] => [x]
  | y :: ys => if x ≤ y then x :: y :: ys else y :: insertByDistance x ys

/-- Ascending sort by distance, the effect of `std::sort` with the comparator
of EnvironmentBuilder.cpp lines 346-348; matches are identified with their
Hamming distances. -/
def sortByDistance (l : List ℤ) : List ℤ := l.foldr insertByDistance []

/-- Threshold `min(kMaxHammingDistance, matches[0].distance * 5)` computed at
EnvironmentBuilder.cpp line 349 on the sorted match list. -/
def maxHammingOf (sorted : List ℤ) : ℤ := minD kMaxHammingDistance (sorted.headD 0 * 5)

/-- Matches surviving the `erase`/`remove_if` of EnvironmentBuilder.cpp lines
350-356: the predicate removes every match whose distance is below the
threshold, so the survivors are those at or above it. -/
def gateSurvivors (ms : List ℤ) : List ℤ :=
  (sortByDistance ms).filter
    (fun m => ! decide (m < maxHammingOf (sortByDistance ms)))

/-- Hamming-distance stage of `EnvironmentBuilder::Match` (lines 340-360):
an empty graph (`none`) when fewer than `kMinMatches` arrive or survive,
otherwise the surviving matches. -/
def hammingGate (ms : List ℤ) : Option (List ℤ) :=
  if ms.length < kMinMatches then none
  else if (gateSurvivors ms).length < kMinMatches then none
  else some (gateSurvivors ms)

/-- Failing input for the Hamming gate: one excellent match at distance 1 and
twenty-five poor matches at distance 30. -/
def gateExample : List ℤ := 1 :: List.replicate 25 30

/-! ### ArUcoTracker.cpp — id filtering before the reference access -/

/-- Filter of ArUcoTracker.cpp line 264: erase every detected id that is not
a multiple of 5. -/
def filterIds (ids : List ℤ) : List ℤ := ids.filter (fun id => id % 5 == 0)

/-- Prefix of `TrackFrameImpl` (ArUcoTracker.cpp lines 257-272): an empty
detection returns untracked (`some none`) before the filter runs; otherwise
the ids are filtered and, when the marker map is still empty, `ids[0]` is
read to fix the reference marker. `none` marks an out-of-bounds read of an
empty filtered list; `some (some i)` is the id fixed as reference. -/
def referencePrefix (ids : List ℤ) (markersEmpty : Bool) : Option (Option ℤ) :=
  if ids.isEmpty then some none
  else
    match filterIds ids, markersEmpty with
    | [], true => none
    | i :: _, true => some (some i)
    | _, false => some none

/-! ### ArUcoTracker.cpp — pose-log insertion policy -/

/-- Logged pose: a tag distinguishing poses plus the marker ids it observed
(`Pose::observed` of ArUcoTracker.h). Camera position and orientation enter
only through the abstract far predicate, which stands for the test of
ArUcoTracker.cpp lines 448-453: position delta above `kMinDistance` or
rotation angle above `kMinAngle`. -/
structure PoseM where
  tag : ℕ
  observed : List ℤ
deriving DecidableEq

/-- Scan over the pose log (ArUcoTracker.cpp lines 443-459): every visited
pose first adds its observed markers to `allMarkers`; the scan stops at the
first pose within both thresholds (`far p = false`), clearing the add flag.
Returns the flag and the accumulated marker ids. -/
def scanPoses (far : PoseM → Bool) : List PoseM → Bool × List ℤ
  | [] => (true, [])
  | p :: rest =>
    if far p then
      ((scanPoses far rest).1, p.observed ++ (scanPoses far rest).2)
    else (false, p.observed)

/-- Add decision of ArUcoTracker.cpp lines 440-466: keep the pose when the
scan saw only far poses, or when some detected id is missing from the marker
ids the scan accumulated. -/
def addPoseDecision (far : PoseM → Bool) (poses : List PoseM) (ids : List ℤ) : Bool :=
  (scanPoses far poses).1 || ids.any (fun id => ! (scanPoses far poses).2.contains id)

/-- Pose-log update of ArUcoTracker.cpp lines 468-472: append on a positive
decision, otherwise leave the log unchanged. -/
def logUpdate (far : PoseM → Bool) (poses : List PoseM) (p : PoseM) (ids : List ℤ) :
    List PoseM :=
  if addPoseDecision far poses ids then poses ++ [p] else poses

/-- Poses the scan visits: the leading far poses and, when one exists, the
first pose within both thresholds. -/
def scannedPrefix (far : PoseM → Bool) (poses : List PoseM) : List PoseM :=
  poses.takeWhile far ++ (poses.dropWhile far).take 1

/-- The insertion condition as the claim words it: every previously logged
pose is far, or some detected marker id is observed by no previously logged
pose. -/
def claimAppend (far : PoseM → Bool) (poses : List PoseM) (ids : List ℤ) : Bool :=
  poses.all far || ids.any (fun id => poses.all (fun p => ! p.observed.contains id))

/-- Counterexample far predicate: no pose is far. -/
def farNone : PoseM → Bool := fun _ => false

/-- Counterexample log: the first pose observes marker 0, the second observes
marker 5. -/
def posesCE : List PoseM := [⟨0, [0]⟩, ⟨1, [5]⟩]

/-- Counterexample incoming pose. -/
def poseCE : PoseM := ⟨2, [5]⟩

/-! ### EnvironmentBuilder.cpp — state mutation of `AddFrames` -/

/-- Error taxonomy of `EnvironmentBuilderException` (EnvironmentBuilder.h
lines 37-57) plus a marker for failed `assert`s, which abort instead of
throwing. -/
inductive BuildError where
  | blurry
  | notEnoughFeatures
  | noPairwiseMatches
  | noGlobalMatches
  | assertFailure
deriving DecidableEq

/-- Raw batch frame: the `HDRFrame` exposure time together with the values the
external detectors return for the frame and that `AddFrames` only compares
against thresholds — the blur score of the wavelet blur detector and the ORB
keypoint count. Times are embedded in units of `1e-7` s (the float tolerance
of the exposure assert becomes one unit) and blur scores in units of `1e-6`
(so `kMinBlurThreshold = 0.01` becomes `10000`). -/
structure RawFrameM where
  time : ℤ
  blurPer : ℤ
  keypoints : ℕ
deriving DecidableEq

/-- Constant `kMinBlurThreshold = 0.01` in `1e-6` units
(EnvironmentBuilder.cpp line 16). -/
def kMinBlurThreshold : ℤ := 10000

/-- Constant `kMinFeatures` (EnvironmentBuilder.cpp line 17). -/
def kMinFeatures : ℕ := 50

/-- Constant `kMinPairs` (EnvironmentBuilder.cpp line 26). -/
def kMinPairs : ℕ := 2

/-- Stored frame (`EnvironmentBuilder::Frame`): its dense global index
`index_ + i` and its exposure level `i` (EnvironmentBuilder.cpp lines 265-274). -/
structure FrameM where
  index : ℤ
  level : ℕ
deriving DecidableEq

/-- Match graph: map from a (frame, keypoint) node to the list of matching
nodes, kept as an association list. -/
abbrev MatchGraphM : Type := List ((ℤ × ℕ) × List (ℤ × ℕ))

/-- Builder state accumulated across batches: the exposure-time list, the
stored frames, the merged match graph, the next frame index, and the
configuration flag enabling the blur check. -/
structure BuilderState where
  exposures : List ℤ
  frames : List FrameM
  graph : MatchGraphM
  index : ℤ
  checkBlur : Bool
deriving DecidableEq

/-- Externally computed matching results parameterizing the embedding:
`pairwise i j` is the graph `Match` returns for batch pair `(i, j)` and
`global fidx i` the graph for stored frame of index `fidx` against batch
frame `i`. -/
structure MatchOracle where
  pairwise : ℕ → ℕ → MatchGraphM
  global : ℤ → ℕ → MatchGraphM

/-- Exposure validation of the `else` branch (EnvironmentBuilder.cpp lines
224-229): equal lengths and each time within the tolerance (one unit). -/
def exposuresOk (es : List ℤ) (batch : List RawFrameM) : Bool :=
  es.length == batch.length &&
    (List.zip es batch).all (fun pr => (pr.2.time - pr.1).natAbs < 1)

/-- Per-frame loop (EnvironmentBuilder.cpp lines 235-275): the first frame
failing the blur check raises BLURRY, the first with too few keypoints raises
NOT_ENOUGH_FEATURES. -/
def frameError (cb : Bool) : List RawFrameM → Option BuildError
  | [] => none
  | f :: rest =>
    if cb ∧ f.blurPer < kMinBlurThreshold then some BuildError.blurry
    else if f.keypoints < kMinFeatures then some BuildError.notEnoughFeatures
    else frameError cb rest

/-- Index pairs `(i, j)` with `i < j` in the nested loop order of
EnvironmentBuilder.cpp lines 280-287. -/
def pairList (n : ℕ) : List (ℕ × ℕ) :=
  (List.range n).flatMap fun i => ((List.range n).filter (fun j => i < j)).map fun j => (i, j)

/-- Global matching loop (EnvironmentBuilder.cpp lines 290-301): for each new
frame the stored frames are visited newest first and the non-empty match
graphs collected. -/
def globalGraphs (o : MatchOracle) (old : List FrameM) (n : ℕ) : List MatchGraphM :=
  (List.range n).flatMap fun i =>
    old.reverse.filterMap fun f =>
      if (o.global f.index i).isEmpty then none else some (o.global f.index i)

/-- Append `vs` to the adjacency list of `key`, inserting the node when
absent (`graph_[node.first]` update, EnvironmentBuilder.cpp line 314). -/
def graphInsert (g : MatchGraphM) (key : ℤ × ℕ) (vs : List (ℤ × ℕ)) : MatchGraphM :=
  match g with
  | [] => [(key, vs)]
  | (k, l) :: rest =>
      if k = key then (k, l ++ vs) :: rest else (k, l) :: graphInsert rest key vs

/-- Merge one local match graph into the running graph (EnvironmentBuilder.cpp
lines 312-316). -/
def graphMerge (g : MatchGraphM) (lg : MatchGraphM) : MatchGraphM :=
  lg.foldl (fun acc node => graphInsert acc node.1 node.2) g

/-- Continuation of `AddFrames` after the exposure step, from state `s1`
(EnvironmentBuilder.cpp lines 231-320): per-frame checks, pairwise matching,
global matching, then the commit appending frames, merging graphs and
advancing the index. Returns the outcome with the state the builder is left
in — a C++ throw leaves the object exactly as it was at the throw point. -/
def addFramesRest (o : MatchOracle) (s1 : BuilderState) (batch : List RawFrameM) :
    Option BuildError × BuilderState :=
  match frameError s1.checkBlur batch with
  | some e => (some e, s1)
  | none =>
    if (pairList batch.length).any (fun pr => (o.pairwise pr.1 pr.2).isEmpty) then
      (some BuildError.noPairwiseMatches, s1)
    else
      if s1.frames.length ≠ 0 ∧
          (globalGraphs o s1.frames batch.length).length ≤
            (if s1.frames.length < 5 then 0 else kMinPairs) then
        (some BuildError.noGlobalMatches, s1)
      else
        (none, { s1 with
          frames := s1.frames ++
            ((List.range batch.length).map fun i : ℕ => FrameM.mk (s1.index + (i : ℤ)) i),
          graph := (((pairList batch.length).map fun pr => o.pairwise pr.1 pr.2) ++
              globalGraphs o s1.frames batch.length).foldl graphMerge s1.graph,
          index := s1.index + batch.length })

/-- The `AddFrames` of EnvironmentBuilder.cpp lines 217-320. On the first
batch the exposure list is recorded before anything is validated; later
batches assert the exposure lists agree. -/
def addFrames (o : MatchOracle) (s : BuilderState) (batch : List RawFrameM) :
    Option BuildError × BuilderState :=
  if s.exposures.isEmpty then
    addFramesRest o { s with exposures := batch.map RawFrameM.time } batch
  else if exposuresOk s.exposures batch then
    addFramesRest o s batch
  else (some BuildError.assertFailure, s)

/-- Oracle with no matches anywhere. -/
def oracleCE : MatchOracle := ⟨fun _ _ => [], fun _ _ => []⟩

/-- Counterexample builder state: a fresh builder with the blur check on. -/
def builderCE : BuilderState := ⟨[], [], [], 0, true⟩

/-- Counterexample batch: a single blurry frame. -/
def batchCE : List RawFrameM := [⟨10000000, 0, 100⟩]

/-- Witness builder state: one exposure recorded, blur check off. -/
def builderW : BuilderState := ⟨[100], [], [], 0, false⟩

/-- Witness batch: a frame with matching exposure but too few keypoints. -/
def batchW : List RawFrameM := [⟨100, 0, 10⟩]

/-! ### ArUcoTracker.cpp — camera-pose solve and inlier recovery -/

/-- 2-D image point. -/
abbrev Pt2 : Type := ℚ × ℚ

/-- 3-D world point. -/
abbrev Pt3 : Type := ℚ × ℚ × ℚ

/-- Marker pose `ArUcoTracker::Marker`: position `t = (tx, ty, tz)` and
orientation quaternion `q = (qw, qx, qy, qz)`. -/
structure MarkerM where
  tx : ℚ
  ty : ℚ
  tz : ℚ
  qw : ℚ
  qx : ℚ
  qy : ℚ
  qz : ℚ
deriving DecidableEq

/-- Grid of the four marker corners at half `kMarkerSize = 4.6` per side
(ArUcoTracker.cpp lines 20-31). -/
def kGrid : Fin 4 → Pt3 :=
  ![(-23/10, 23/10, 0), (23/10, 23/10, 0), (23/10, -23/10, 0), (-23/10, -23/10, 0)]

/-- Rotation of a vector by the marker quaternion, the `toRotationMatrix`
formula Eigen applies to a normalized quaternion. -/
def rotApply (m : MarkerM) (v : Pt3) : Pt3 :=
  ((1 - 2 * (m.qy ^ 2 + m.qz ^ 2)) * v.1
      + 2 * (m.qx * m.qy - m.qz * m.qw) * v.2.1
      + 2 * (m.qx * m.qz + m.qy * m.qw) * v.2.2,
   2 * (m.qx * m.qy + m.qz * m.qw) * v.1
      + (1 - 2 * (m.qx ^ 2 + m.qz ^ 2)) * v.2.1
      + 2 * (m.qy * m.qz - m.qx * m.qw) * v.2.2,
   2 * (m.qx * m.qz - m.qy * m.qw) * v.1
      + 2 * (m.qy * m.qz + m.qx * m.qw) * v.2.1
      + (1 - 2 * (m.qx ^ 2 + m.qy ^ 2)) * v.2.2)

/-- Corner positions `Marker::world()` (ArUcoTracker.cpp lines 228-234): each
rotated grid corner plus the marker position. -/
def MarkerM.world (m : MarkerM) (i : Fin 4) : Pt3 :=
  ((rotApply m (kGrid i)).1 + m.tx,
   (rotApply m (kGrid i)).2.1 + m.ty,
   (rotApply m (kGrid i)).2.2 + m.tz)

/-- First-match association lookup standing for `unordered_map::find`. -/
def lookupM (l : List (ℤ × MarkerM)) (id : ℤ) : Option MarkerM :=
  match l with
  | [] => none
  | (k, m) :: rest => if k = id then some m else lookupM rest id

/-- One detected marker observation: its id and its four image corners. -/
structure Obs where
  id : ℤ
  corners : Fin 4 → Pt2

/-- Known-marker correspondences collected by ArUcoTracker.cpp lines 292-319:
the detected markers found in the map, in detection order, paired with their
map entry and image corners. -/
def knownCorrs (markers : List (ℤ × MarkerM)) (obs : List Obs) :
    List (ℤ × MarkerM × (Fin 4 → Pt2)) :=
  obs.filterMap fun o => (lookupM markers o.id).map fun m => (o.id, m, o.corners)

/-- Flattening of one 4-element block per input element, the unrolled inner
loop of ArUcoTracker.cpp lines 315-318. -/
def flat4 {α β : Type} (f : α → Fin 4 → β) : List α → List β
  | [] => []
  | k :: rest => [f k 0, f k 1, f k 2, f k 3] ++ flat4 f rest

/-- Flattened object-point list `world`: four `Marker::world()` corners per
known marker. -/
def worldPoints (ks : List (ℤ × MarkerM × (Fin 4 → Pt2))) : List Pt3 :=
  flat4 (fun k => k.2.1.world) ks

/-- Flattened image-point list `image`: four observed corners per known
marker. -/
def imagePoints (ks : List (ℤ × MarkerM × (Fin 4 → Pt2))) : List Pt2 :=
  flat4 (fun k => k.2.2) ks

/-- The `markerID` array used to recover inlier ids (ArUcoTracker.cpp
line 311). -/
def markerIDs (ks : List (ℤ × MarkerM × (Fin 4 → Pt2))) : List ℤ := ks.map (·.1)

/-- Solver chosen at ArUcoTracker.cpp lines 326-346. -/
inductive SolveKind where
  | p3p
  | ransacEpnp
deriving DecidableEq

/-- Dispatch on `world.size() == 4` (ArUcoTracker.cpp line 326): plain P3P for
a single marker, RANSAC with EPNP otherwise. -/
def solveKindOf (ks : List (ℤ × MarkerM × (Fin 4 → Pt2))) : SolveKind :=
  if (worldPoints ks).length = 4 then SolveKind.p3p else SolveKind.ransacEpnp

/-- Inlier marker ids (ArUcoTracker.cpp lines 334 and 347-349): the single
marker in the P3P case, otherwise the owner `markerID[cornerID / 4]` of every
corner RANSAC reports as an inlier. -/
def inlierIds (ks : List (ℤ × MarkerM × (Fin 4 → Pt2))) (rc : List ℕ) : List ℤ :=
  if (worldPoints ks).length = 4 then (markerIDs ks).take 1
  else rc.map fun c => (markerIDs ks).getD (c / 4) 0

/-- Corner index within its marker block. -/
def cornerFin (c : ℕ) : Fin 4 := ⟨c % 4, Nat.mod_lt c (by norm_num)⟩

/-! ### ArUcoTracker.cpp — the reference marker keeps the origin pose -/

/-- Origin pose `{ {0, 0, 0}, {1, 0, 0, 0} }` installed for the reference
marker (ArUcoTracker.cpp line 270). -/
def originMarker : MarkerM := ⟨0, 0, 0, 1, 0, 0, 0⟩

/-- Tracker state relevant to the gauge invariant: the marker map and the id
of the reference marker once fixed. -/
structure TrackerSt where
  markers : List (ℤ × MarkerM)
  reference : Option ℤ

/-- Inputs of one `TrackFrameImpl` call: the ids the detector reports, which
new-marker PnP solves succeed, the initial pose each new marker receives (the
composition of ArUcoTracker.cpp line 382), and the values the local
refinement solve of lines 403-434 leaves in each new marker's parameter
blocks — the solver outputs are unconstrained functions, standing for
arbitrary Ceres results. -/
structure TrackEv where
  ids : List ℤ
  solveOk : ℤ → Bool
  newInit : ℤ → MarkerM
  localOut : ℤ → MarkerM

/-- One event of a tracker run: a frame tracked, or a background
`BundleAdjust` pass whose solver writes `solved id` into every non-constant
marker block. -/
inductive Ev where
  | track (e : TrackEv)
  | ba (solved : ℤ → MarkerM)

/-- New-marker insertion loop (ArUcoTracker.cpp lines 369-415): ids already in
the map are skipped; of the rest, those whose own solvePnP succeeds are
appended with their initial pose. Returns the new map and the ids inserted by
this call. -/
def insertLoop (ok : ℤ → Bool) (ini : ℤ → MarkerM) :
    List ℤ → List (ℤ × MarkerM) → List (ℤ × MarkerM) × List ℤ
  | [], ms => (ms, [])
  | id :: rest, ms =>
    if (lookupM ms id).isSome then insertLoop ok ini rest ms
    else if ok id then
      ((insertLoop ok ini rest (ms ++ [(id, ini id)])).1,
        id :: (insertLoop ok ini rest (ms ++ [(id, ini id)])).2)
    else insertLoop ok ini rest ms

/-- One `TrackFrameImpl` call (ArUcoTracker.cpp lines 253-480) restricted to
the marker map and the reference id: empty detections return early; the ids
are filtered; with an empty map the first filtered id becomes the reference at
the origin pose (an empty filtered list is the out-of-bounds read shown by
`referencePrefix` and is modelled as leaving the state unchanged); when no
detected id is known the call bails out; otherwise new markers are inserted
and the local refinement solve overwrites exactly the parameter blocks of the
markers this call inserted — the reference is already in the map, so its
blocks are never part of that problem. -/
def trackStep (e : TrackEv) (s : TrackerSt) : TrackerSt :=
  if e.ids.isEmpty then s
  else
    match filterIds e.ids with
    | [] => s
    | i0 :: rest =>
      let s1 := if s.markers.isEmpty then TrackerSt.mk [(i0, originMarker)] (some i0) else s
      if (i0 :: rest).all (fun id => (lookupM s1.markers id).isNone) then s1
      else
        TrackerSt.mk
          ((insertLoop e.solveOk e.newInit (i0 :: rest) s1.markers).1.map fun p =>
            if p.1 ∈ (insertLoop e.solveOk e.newInit (i0 :: rest) s1.markers).2 then
              (p.1, e.localOut p.1)
            else p)
          s1.reference

/-- One `BundleAdjust` pass (ArUcoTracker.cpp lines 519-615) restricted to the
marker map: the snapshot is optimized with the reference marker's parameter
blocks held constant (lines 558-562) and every snapshot marker is then
written back (lines 586-601); a non-constant block holds the arbitrary
`solved id` after `ceres::Solve`. The background loop runs a pass only after
a pose was logged, hence after a reference exists; with no reference the pass
is modelled as a no-op. -/
def baStep (solved : ℤ → MarkerM) (s : TrackerSt) : TrackerSt :=
  match s.reference with
  | none => s
  | some ref =>
      TrackerSt.mk
        (s.markers.map fun p => if p.1 = ref then p else (p.1, solved p.1))
        s.reference

/-- One step of a tracker run. -/
def trackerStep (ev : Ev) (s : TrackerSt) : TrackerSt :=
  match ev with
  | .track e => trackStep e s
  | .ba solved => baStep solved s

/-- State reached after a sequence of events, starting from the empty
tracker built by the constructor. -/
def runTracker (evs : List Ev) : TrackerSt :=
  evs.foldl (fun s ev => trackerStep ev s) (TrackerSt.mk [] none)

/-- Gauge invariant: once a reference marker exists, its map entry is the
origin pose. -/
def RefInv (s : TrackerSt) : Prop :=
  ∀ r : ℤ, s.reference = some r → lookupM s.markers r = some originMarker

/-- Witness event list: a single frame detecting marker 5 on the empty
tracker. -/
def evsWit : List Ev :=
  [Ev.track ⟨[5], fun _ => true, fun _ => originMarker, fun _ => originMarker⟩]

/-! ### ArUcoTracker.cpp — destructor and background-thread shutdown -/

/-- Primitive actions of the destructor protocol. -/
inductive DtorAct where
  | storeRunningFalse
  | notifyAll
  | joinThread
deriving DecidableEq

/-- Actions `~ArUcoTracker` performs, transcribed from ArUcoTracker.cpp lines
247-250: `running_ = false; thread_.join();`. The only `cond_.notify_all()`
of the class is in `TrackFrameImpl` (line 471); the destructor has none. -/
def dtorActions : List DtorAct := [DtorAct.storeRunningFalse, DtorAct.joinThread]

/-- Phase of the background thread running `RunBundleAdjustment`
(ArUcoTracker.cpp lines 617-632). -/
inductive BgPhase where
  | blocked
  | checking
  | adjusting
  | exited
deriving DecidableEq

/-- Shared shutdown state: the `running_` flag, whether an unprocessed pose
exists (`processed < poses_.size()`), the thread phase, and whether a
condition-variable notification is pending. -/
structure ShutdownSt where
  running : Bool
  pendingPose : Bool
  bg : BgPhase
  notified : Bool
deriving DecidableEq

/-- One step of the background thread under the semantics of
`condition_variable::wait(lock, pred)` without spurious wakeups: a blocked
thread re-evaluates the predicate `processed < poses_.size() || !running_`
(ArUcoTracker.cpp line 625) only after a notification; a wake-up with a false
predicate blocks again; with a true predicate the thread exits when
`running_` is false (lines 626-628) and otherwise runs `BundleAdjust` and
loops. -/
def bgStep (s : ShutdownSt) : ShutdownSt :=
  match s.bg with
  | BgPhase.blocked =>
      if s.notified then { s with bg := BgPhase.checking, notified := false } else s
  | BgPhase.checking =>
      if s.pendingPose ∨ s.running = false then
        if s.running = false then { s with bg := BgPhase.exited }
        else { s with bg := BgPhase.adjusting }
      else { s with bg := BgPhase.blocked }
  | BgPhase.adjusting => { s with bg := BgPhase.checking, pendingPose := false }
  | BgPhase.exited => s

/-- State right after the destructor's store when the thread was blocked with
no unprocessed pose: `running_` is false and — the destructor never calls
notify — no notification is pending. -/
def afterDtorStore : ShutdownSt := ⟨false, false, BgPhase.blocked, false⟩

/-- The same state had the destructor also notified the condition variable. -/
def afterDtorNotify : ShutdownSt := ⟨false, false, BgPhase.blocked, true⟩

/-! ## Theorems -/

/-! ### Moments — correctness of the query -/

theorem rowSum_eq (I J : ℕ) (pix : ℕ → ℕ → ℤ) (y x : ℕ) :
    rowSum I J pix y x = ∑ xp ∈ Finset.range (x + 1), momentTerm I J pix y xp := by
  induction x with
  | zero => simp [rowSum]
  | succ x ih => rw [rowSum, Finset.sum_range_succ _ (x + 1), ih]

theorem sTable_eq (I J : ℕ) (pix : ℕ → ℕ → ℤ) (y x : ℕ) :
    sTable I J pix y x = prefixSum I J pix (y + 1) (x + 1) := by
  induction y with
  | zero => simp [sTable, prefixSum, rowSum_eq]
  | succ y ih =>
      rw [sTable, ih, rowSum_eq, prefixSum, prefixSum, Finset.sum_range_succ _ (y + 1)]

theorem sGuard_nonneg (I J : ℕ) (pix : ℕ → ℕ → ℤ) (y x : ℕ) :
    sGuard I J pix (y : ℤ) (x : ℤ) = prefixSum I J pix (y + 1) (x + 1) := by
  simp [sGuard, sTable_eq]

theorem sGuard_negY (I J : ℕ) (pix : ℕ → ℕ → ℤ) (x : ℤ) :
    sGuard I J pix (-1) x = 0 := by
  simp [sGuard]

theorem sGuard_negX (I J : ℕ) (pix : ℕ → ℕ → ℤ) (y : ℤ) :
    sGuard I J pix y (-1) = 0 := by
  simp [sGuard]

theorem prefixSum_zero_left (I J : ℕ) (pix : ℕ → ℕ → ℤ) (x : ℕ) :
    prefixSum I J pix 0 x = 0 := by
  simp [prefixSum]

theorem prefixSum_zero_right (I J : ℕ) (pix : ℕ → ℕ → ℤ) (y : ℕ) :
    prefixSum I J pix y 0 = 0 := by
  simp [prefixSum]

theorem regionSum_via_prefixSums (I J : ℕ) (pix : ℕ → ℕ → ℤ) (r : Region)
    (hx : r.x0 ≤ r.x1) (hy : r.y0 ≤ r.y1) :
    regionSum I J pix r =
      prefixSum I J pix (r.y1 + 1) (r.x1 + 1) - prefixSum I J pix (r.y1 + 1) r.x0
        + prefixSum I J pix r.y0 r.x0 - prefixSum I J pix r.y0 (r.x1 + 1) := by
  have hx1 : r.x0 ≤ r.x1 + 1 := Nat.le_succ_of_le hx
  have hy1 : r.y0 ≤ r.y1 + 1 := Nat.le_succ_of_le hy
  have inner : ∀ yp : ℕ,
      ∑ xp ∈ Finset.Icc r.x0 r.x1, momentTerm I J pix yp xp =
        (∑ xp ∈ Finset.range (r.x1 + 1), momentTerm I J pix yp xp)
          - ∑ xp ∈ Finset.range r.x0, momentTerm I J pix yp xp := by
    intro yp
    rw [← Nat.Ico_succ_right, Finset.sum_Ico_eq_sub _ hx1]
  have outer : ∀ g : ℕ → ℤ,
      ∑ yp ∈ Finset.Icc r.y0 r.y1, g yp =
        (∑ yp ∈ Finset.range (r.y1 + 1), g yp) - ∑ yp ∈ Finset.range r.y0, g yp := by
    intro g
    rw [← Nat.Ico_succ_right, Finset.sum_Ico_eq_sub _ hy1]
  rw [regionSum]
  calc
    ∑ yp ∈ Finset.Icc r.y0 r.y1, ∑ xp ∈ Finset.Icc r.x0 r.x1, momentTerm I J pix yp xp
        = ∑ yp ∈ Finset.Icc r.y0 r.y1,
            ((∑ xp ∈ Finset.range (r.x1 + 1), momentTerm I J pix yp xp)
              - ∑ xp ∈ Finset.range r.x0, momentTerm I J pix yp xp) := by
          exact Finset.sum_congr rfl fun yp _ => inner yp
    _ = (∑ yp ∈ Finset.Icc r.y0 r.y1, ∑ xp ∈ Finset.range (r.x1 + 1), momentTerm I J pix yp xp)
          - ∑ yp ∈ Finset.Icc r.y0 r.y1, ∑ xp ∈ Finset.range r.x0, momentTerm I J pix yp xp := by
          rw [Finset.sum_sub_distrib]
    _ = _ := by
          rw [outer fun yp => ∑ xp ∈ Finset.range (r.x1 + 1), momentTerm I J pix yp xp,
            outer fun yp => ∑ xp ∈ Finset.range r.x0, momentTerm I J pix yp xp]
          simp only [prefixSum]
          ring

theorem momentsQuery_eq_regionSum (I J : ℕ) (pix : ℕ → ℕ → ℤ) (r : Region)
    (hx : r.x0 ≤ r.x1) (hy : r.y0 ≤ r.y1) :
    momentsQuery I J pix r = regionSum I J pix r := by
  rw [regionSum_via_prefixSums I J pix r hx hy, momentsQuery]
  rcases Nat.eq_zero_or_pos r.x0 with hx0 | hx0 <;>
    rcases Nat.eq_zero_or_pos r.y0 with hy0 | hy0
  · rw [hx0, hy0]
    norm_num [sGuard_negX, sGuard_negY, prefixSum_zero_left, prefixSum_zero_right]
    have h1 : sGuard I J pix (r.y1 : ℤ) (r.x1 : ℤ) = prefixSum I J pix (r.y1 + 1) (r.x1 + 1) :=
      sGuard_nonneg I J pix r.y1 r.x1
    exact h1
  · obtain ⟨y0p, hy0p⟩ := Nat.exists_eq_add_of_lt hy0
    rw [hx0]
    have hyc : ((r.y0 : ℤ) - 1) = ((y0p : ℕ) : ℤ) := by omega
    rw [hyc]
    norm_num [sGuard_negX, sGuard_nonneg, prefixSum_zero_right]
    have hy0n : y0p + 1 = r.y0 := by omega
    rw [hy0n]
  · obtain ⟨x0p, hx0p⟩ := Nat.exists_eq_add_of_lt hx0
    rw [hy0]
    have hxc : ((r.x0 : ℤ) - 1) = ((x0p : ℕ) : ℤ) := by omega
    rw [hxc]
    norm_num [sGuard_negY, sGuard_nonneg, prefixSum_zero_left]
    have hx0n : x0p + 1 = r.x0 := by omega
    rw [hx0n]
  · obtain ⟨x0p, hx0p⟩ := Nat.exists_eq_add_of_lt hx0
    obtain ⟨y0p, hy0p⟩ := Nat.exists_eq_add_of_lt hy0
    have hxc : ((r.x0 : ℤ) - 1) = ((x0p : ℕ) : ℤ) := by omega
    have hyc : ((r.y0 : ℤ) - 1) = ((y0p : ℕ) : ℤ) := by omega
    rw [hxc, hyc, sGuard_nonneg, sGuard_nonneg, sGuard_nonneg, sGuard_nonneg]
    have hx0n : x0p + 1 = r.x0 := by omega
    have hy0n : y0p + 1 = r.y0 := by omega
    rw [hx0n, hy0n]

/-- C8: for every image and every in-bounds region, the `Moments<I, J>` query
returns exactly the sum over the region of `y^I * x^J * pix(y, x)`;
consequently the 0th moment of a uniform region of area `A` and value `v` is
`A * v`, and the queries of two regions tiling a larger region add up to the
query of the larger region. -/
theorem momentsQuery_spec (I J : ℕ) (pix : ℕ → ℕ → ℤ) (r : Region)
    (hx : r.x0 ≤ r.x1) (hy : r.y0 ≤ r.y1) :
    momentsQuery I J pix r =
        ∑ yp ∈ Finset.Icc r.y0 r.y1, ∑ xp ∈ Finset.Icc r.x0 r.x1,
          (yp : ℤ) ^ I * (xp : ℤ) ^ J * pix yp xp
  ∧ (∀ v : ℤ, I = 0 → J = 0 →
      (∀ yp ∈ Finset.Icc r.y0 r.y1, ∀ xp ∈ Finset.Icc r.x0 r.x1, pix yp xp = v) →
      momentsQuery I J pix r = (r.area : ℤ) * v)
  ∧ (∀ ym : ℕ, r.y0 ≤ ym → ym < r.y1 →
      momentsQuery I J pix ⟨r.y0, r.x0, ym, r.x1⟩
        + momentsQuery I J pix ⟨ym + 1, r.x0, r.y1, r.x1⟩
        = momentsQuery I J pix r) := by
  have main : momentsQuery I J pix r = regionSum I J pix r :=
    momentsQuery_eq_regionSum I J pix r hx hy
  refine ⟨by rw [main]; rfl, ?_, ?_⟩
  · intro v hI hJ huni
    rw [main, regionSum]
    subst hI; subst hJ
    have hterm : ∀ yp ∈ Finset.Icc r.y0 r.y1, ∀ xp ∈ Finset.Icc r.x0 r.x1,
        momentTerm 0 0 pix yp xp = v := by
      intro yp hyp xp hxp
      simp [momentTerm, huni yp hyp xp hxp]
    calc
      ∑ yp ∈ Finset.Icc r.y0 r.y1, ∑ xp ∈ Finset.Icc r.x0 r.x1, momentTerm 0 0 pix yp xp
          = ∑ yp ∈ Finset.Icc r.y0 r.y1, ∑ xp ∈ Finset.Icc r.x0 r.x1, v := by
            refine Finset.sum_congr rfl fun yp hyp => Finset.sum_congr rfl fun xp hxp => ?_
            exact hterm yp hyp xp hxp
      _ = (r.area : ℤ) * v := by
            simp only [Finset.sum_const, Nat.card_Icc, nsmul_eq_mul]
            have h1 : ((r.y1 + 1 - r.y0 : ℕ) : ℤ) = (r.y1 : ℤ) + 1 - r.y0 := by omega
            have h2 : ((r.x1 + 1 - r.x0 : ℕ) : ℤ) = (r.x1 : ℤ) + 1 - r.x0 := by omega
            have h3 : ((r.area : ℕ) : ℤ) = ((r.y1 : ℤ) + 1 - r.y0) * ((r.x1 : ℤ) + 1 - r.x0) := by
              have h5 : ((r.y1 - r.y0 + 1 : ℕ) : ℤ) = (r.y1 : ℤ) + 1 - r.y0 := by omega
              have h6 : ((r.x1 - r.x0 + 1 : ℕ) : ℤ) = (r.x1 : ℤ) + 1 - r.x0 := by omega
              simp only [Region.area, Nat.cast_mul, h5, h6]
            rw [h1, h2, h3]
            ring
  · intro ym hym0 hym1
    have h1 : momentsQuery I J pix ⟨r.y0, r.x0, ym, r.x1⟩
        = regionSum I J pix ⟨r.y0, r.x0, ym, r.x1⟩ :=
      momentsQuery_eq_regionSum I J pix _ hx hym0
    have h2 : momentsQuery I J pix ⟨ym + 1, r.x0, r.y1, r.x1⟩
        = regionSum I J pix ⟨ym + 1, r.x0, r.y1, r.x1⟩ :=
      momentsQuery_eq_regionSum I J pix _ hx hym1
    rw [main, h1, h2, regionSum, regionSum, regionSum]
    simp only
    rw [← Nat.Ico_succ_right r.y0 ym, ← Nat.Ico_succ_right (ym + 1) r.y1,
      ← Nat.Ico_succ_right r.y0 r.y1]
    exact Finset.sum_Ico_consecutive _ (by omega) (by omega)

/-- Witness for `momentsQuery_spec` at a concrete region and image. -/
theorem momentsQuery_spec_witness :
    (Region.mk 0 0 1 2).x0 ≤ (Region.mk 0 0 1 2).x1 ∧
    (Region.mk 0 0 1 2).y0 ≤ (Region.mk 0 0 1 2).y1 ∧
    momentsQuery 0 0 (fun _ _ => 3) (Region.mk 0 0 1 2) =
      ∑ yp ∈ Finset.Icc 0 1, ∑ xp ∈ Finset.Icc 0 2,
        (yp : ℤ) ^ 0 * (xp : ℤ) ^ 0 * (fun _ _ => (3 : ℤ)) yp xp :=
  ⟨by decide, by decide,
    (momentsQuery_spec 0 0 (fun _ _ => 3) (Region.mk 0 0 1 2) (by decide) (by decide)).1⟩

/-! ### Jet — forward-mode differentiation is exact -/

/-- C9: the Jet dual-number operators implement exact forward-mode
differentiation: under the side conditions (nonzero divisors, positive
square-root arguments) the jet evaluation of an expression carries the exact
value in its scalar part and, in tangent component `i`, the exact partial
derivative with respect to input `i` — each operator propagating tangents by
its derivative rule, with `var i` seeded by a unit tangent in dimension `i`. -/
theorem jet_autodiff_correct {n : ℕ} (ex : JetExpr n) (x : Fin n → ℝ) (hok : exprOk ex x) :
    (jetEval ex x).s = evalExpr ex x ∧
    ∀ i : Fin n, HasDerivAt (fun h => evalExpr ex (Function.update x i h))
      ((jetEval ex x).e i) (x i) := by
  induction ex with
  | var j =>
      refine ⟨rfl, fun i => ?_⟩
      by_cases hij : j = i
      · subst hij
        have hfe : (fun h => evalExpr (JetExpr.var j) (Function.update x j h)) =
            fun h : ℝ => h := by
          funext h
          simp [evalExpr]
        have hval : (jetEval (JetExpr.var j) x).e j = 1 := by
          simp [jetEval, Jet.seed]
        rw [hfe, hval]
        exact hasDerivAt_id (x j)
      · have hfe : (fun h => evalExpr (JetExpr.var j) (Function.update x i h)) =
            fun _ : ℝ => x j := by
          funext h
          simp [evalExpr, Function.update_noteq hij]
        have hval : (jetEval (JetExpr.var j) x).e i = 0 := by
          simp [jetEval, Jet.seed, if_neg (Ne.symm hij)]
        rw [hfe, hval]
        exact hasDerivAt_const (x i) (x j)
  | lit c =>
      refine ⟨rfl, fun i => ?_⟩
      have hval : (jetEval (JetExpr.lit c) x).e i = 0 := rfl
      rw [hval]
      exact hasDerivAt_const (x i) c
  | add a b iha ihb =>
      obtain ⟨ha, hb⟩ := hok
      obtain ⟨hsa, hda⟩ := iha ha
      obtain ⟨hsb, hdb⟩ := ihb hb
      refine ⟨by simp [jetEval, Jet.add, hsa, hsb, evalExpr], fun i => ?_⟩
      have key := (hda i).add (hdb i)
      have heq : (jetEval (JetExpr.add a b) x).e i = (jetEval a x).e i + (jetEval b x).e i :=
        rfl
      rw [heq]
      simp only [evalExpr]
      exact key
  | sub a b iha ihb =>
      obtain ⟨ha, hb⟩ := hok
      obtain ⟨hsa, hda⟩ := iha ha
      obtain ⟨hsb, hdb⟩ := ihb hb
      refine ⟨by simp [jetEval, Jet.sub, hsa, hsb, evalExpr], fun i => ?_⟩
      have key := (hda i).sub (hdb i)
      have heq : (jetEval (JetExpr.sub a b) x).e i = (jetEval a x).e i - (jetEval b x).e i :=
        rfl
      rw [heq]
      simp only [evalExpr]
      exact key
  | mul a b iha ihb =>
      obtain ⟨ha, hb⟩ := hok
      obtain ⟨hsa, hda⟩ := iha ha
      obtain ⟨hsb, hdb⟩ := ihb hb
      refine ⟨by simp [jetEval, Jet.mul, hsa, hsb, evalExpr], fun i => ?_⟩
      have key := (hda i).mul (hdb i)
      rw [Function.update_eq_self i x] at key
      have heq : (jetEval (JetExpr.mul a b) x).e i
          = (jetEval a x).e i * evalExpr b x + evalExpr a x * (jetEval b x).e i := by
        simp only [jetEval, Jet.mul]
        rw [hsa, hsb]
        ring
      rw [heq]
      simp only [evalExpr]
      exact key
  | div a b iha ihb =>
      obtain ⟨ha, hb, hbne⟩ := hok
      obtain ⟨hsa, hda⟩ := iha ha
      obtain ⟨hsb, hdb⟩ := ihb hb
      refine ⟨by simp [jetEval, Jet.div, hsa, hsb, evalExpr], fun i => ?_⟩
      have key := (hda i).div (hdb i)
        (by rw [Function.update_eq_self i x]; exact hbne)
      rw [Function.update_eq_self i x] at key
      have heq : (jetEval (JetExpr.div a b) x).e i
          = ((jetEval a x).e i * evalExpr b x - evalExpr a x * (jetEval b x).e i)
              / evalExpr b x ^ 2 := by
        simp only [jetEval, Jet.div]
        rw [hsa, hsb]
        field_simp
        ring
      rw [heq]
      simp only [evalExpr]
      exact key
  | sqrtE a iha =>
      obtain ⟨ha, hpos⟩ := hok
      obtain ⟨hsa, hda⟩ := iha ha
      refine ⟨by simp [jetEval, Jet.sqrtJ, hsa, evalExpr], fun i => ?_⟩
      have hfx : Function.update x i (x i) = x := Function.update_eq_self i x
      have hg : HasDerivAt Real.sqrt (1 / (2 * Real.sqrt (evalExpr a x)))
          (evalExpr a (Function.update x i (x i))) := by
        rw [hfx]
        exact Real.hasDerivAt_sqrt (ne_of_gt hpos)
      have key := hg.comp (x i) (hda i)
      have heq : (jetEval (JetExpr.sqrtE a) x).e i
          = 1 / (2 * Real.sqrt (evalExpr a x)) * (jetEval a x).e i := by
        simp only [jetEval, Jet.sqrtJ]
        rw [hsa]
        ring
      rw [heq]
      simp only [evalExpr]
      exact key
  | sinE a iha =>
      obtain ⟨hsa, hda⟩ := iha hok
      refine ⟨by simp [jetEval, Jet.sinJ, hsa, evalExpr], fun i => ?_⟩
      have hfx : Function.update x i (x i) = x := Function.update_eq_self i x
      have hg : HasDerivAt Real.sin (Real.cos (evalExpr a x))
          (evalExpr a (Function.update x i (x i))) := by
        rw [hfx]
        exact Real.hasDerivAt_sin (evalExpr a x)
      have key := hg.comp (x i) (hda i)
      have heq : (jetEval (JetExpr.sinE a) x).e i
          = Real.cos (evalExpr a x) * (jetEval a x).e i := by
        simp only [jetEval, Jet.sinJ]
        rw [hsa]
      rw [heq]
      simp only [evalExpr]
      exact key
  | cosE a iha =>
      obtain ⟨hsa, hda⟩ := iha hok
      refine ⟨by simp [jetEval, Jet.cosJ, hsa, evalExpr], fun i => ?_⟩
      have hfx : Function.update x i (x i) = x := Function.update_eq_self i x
      have hg : HasDerivAt Real.cos (-Real.sin (evalExpr a x))
          (evalExpr a (Function.update x i (x i))) := by
        rw [hfx]
        exact Real.hasDerivAt_cos (evalExpr a x)
      have key := hg.comp (x i) (hda i)
      have heq : (jetEval (JetExpr.cosE a) x).e i
          = -Real.sin (evalExpr a x) * (jetEval a x).e i := by
        simp only [jetEval, Jet.cosJ]
        rw [hsa]
      rw [heq]
      simp only [evalExpr]
      exact key

/-- Witness expression for `jet_autodiff_correct`. -/
def witJetExpr : JetExpr 1 := JetExpr.mul (JetExpr.var 0) (JetExpr.var 0)

/-- Witness input for `jet_autodiff_correct`. -/
noncomputable def witJetX : Fin 1 → ℝ := fun _ => 2

/-- Witness for `jet_autodiff_correct` at a concrete expression and input. -/
theorem jet_autodiff_correct_witness :
    exprOk witJetExpr witJetX ∧
    ((jetEval witJetExpr witJetX).s = evalExpr witJetExpr witJetX ∧
      ∀ i : Fin 1, HasDerivAt (fun h => evalExpr witJetExpr (Function.update witJetX i h))
        ((jetEval witJetExpr witJetX).e i) (witJetX i)) :=
  ⟨⟨trivial, trivial⟩, jet_autodiff_correct witJetExpr witJetX ⟨trivial, trivial⟩⟩

/-! ### Rotation — the manifold update keeps quaternions on the unit sphere -/

theorem expQuat_normSq (d : Fin 3 → ℝ) (hbig : ¬ deltaNorm d < 1e-10) :
    Quaternion.normSq (expQuat d) = 1 := by
  have hnpos : (0 : ℝ) < deltaNorm d := by
    have h10 : (1e-10 : ℝ) ≤ deltaNorm d := not_lt.mp hbig
    linarith [h10]
  have hnne : deltaNorm d ≠ 0 := ne_of_gt hnpos
  have hsq : deltaNorm d ^ 2 = d 0 ^ 2 + d 1 ^ 2 + d 2 ^ 2 := by
    rw [deltaNorm]
    exact Real.sq_sqrt (by positivity)
  rw [Quaternion.normSq_def']
  show Real.cos (deltaNorm d) ^ 2
      + (Real.sin (deltaNorm d) / deltaNorm d * d 0) ^ 2
      + (Real.sin (deltaNorm d) / deltaNorm d * d 1) ^ 2
      + (Real.sin (deltaNorm d) / deltaNorm d * d 2) ^ 2 = 1
  have hexp : Real.cos (deltaNorm d) ^ 2
      + (Real.sin (deltaNorm d) / deltaNorm d * d 0) ^ 2
      + (Real.sin (deltaNorm d) / deltaNorm d * d 1) ^ 2
      + (Real.sin (deltaNorm d) / deltaNorm d * d 2) ^ 2
      = Real.cos (deltaNorm d) ^ 2
        + (Real.sin (deltaNorm d) / deltaNorm d) ^ 2 * (d 0 ^ 2 + d 1 ^ 2 + d 2 ^ 2) := by
    ring
  rw [hexp, ← hsq]
  have hcancel : (Real.sin (deltaNorm d) / deltaNorm d) ^ 2 * deltaNorm d ^ 2
      = Real.sin (deltaNorm d) ^ 2 := by
    field_simp
  rw [hcancel, add_comm]
  exact Real.sin_sq_add_cos_sq (deltaNorm d)

/-- C7: for every unit quaternion `q` and tangent `δ`, `Plus` keeps the result
on the unit sphere: for `|δ| < 1e-10` it returns `q` itself, otherwise it
returns the product of the unit quaternion `(cos |δ|, sin |δ|/|δ| · δ)` with
`q`, and in both cases the result has norm exactly `1`. -/
theorem quatPlus_unit_norm (x : Quaternion ℝ) (d : Fin 3 → ℝ) (hx : ‖x‖ = 1) :
    ‖quatPlus x d‖ = 1
  ∧ (deltaNorm d < 1e-10 → quatPlus x d = x)
  ∧ (¬ deltaNorm d < 1e-10 → quatPlus x d = expQuat d * x ∧ ‖expQuat d‖ = 1) := by
  by_cases hsmall : deltaNorm d < 1e-10
  · refine ⟨?_, fun _ => ?_, fun hbig => absurd hsmall hbig⟩
    · rw [quatPlus, if_pos hsmall]
      exact hx
    · rw [quatPlus, if_pos hsmall]
  · have hunit : ‖expQuat d‖ = 1 := by
      have h1 : Quaternion.normSq (expQuat d) = 1 := expQuat_normSq d hsmall
      have h2 : ‖expQuat d‖ * ‖expQuat d‖ = 1 := by
        rw [← Quaternion.normSq_eq_norm_mul_self]
        exact h1
      nlinarith [norm_nonneg (expQuat d)]
    refine ⟨?_, fun hs => absurd hs hsmall, fun _ => ⟨?_, hunit⟩⟩
    · rw [quatPlus, if_neg hsmall, norm_mul, hunit, hx, one_mul]
    · rw [quatPlus, if_neg hsmall]

/-- Witness for `quatPlus_unit_norm` at the identity quaternion and a zero
tangent. -/
theorem quatPlus_unit_norm_witness :
    ‖(1 : Quaternion ℝ)‖ = 1
  ∧ (‖quatPlus 1 (fun _ => 0)‖ = 1
      ∧ (deltaNorm (fun _ => 0) < 1e-10 → quatPlus 1 (fun _ => 0) = 1)
      ∧ (¬ deltaNorm (fun _ => 0) < 1e-10 →
          quatPlus 1 (fun _ => 0) = expQuat (fun _ => 0) * 1
            ∧ ‖expQuat (fun _ => 0)‖ = 1)) :=
  ⟨norm_one, quatPlus_unit_norm 1 (fun _ => 0) norm_one⟩

/-! ### Hamming gate — the comparison is inverted -/

/-- C2 (code bug): the pair does yield an empty graph when fewer than
`kMinMatches` matches survive the gate, but the `remove_if` predicate of
EnvironmentBuilder.cpp line 354 discards matches whose distance is below
`min(kMaxHammingDistance, 5 * best)` and keeps those above it: on an input
with best distance 1, the threshold is `min(20, 5) = 5`, yet all 25 surviving
matches have distance 30, each exceeding the threshold the claim promises as
an upper bound. -/
theorem hammingGate_keeps_worst :
    (∀ ms : List ℤ, (gateSurvivors ms).length < kMinMatches → hammingGate ms = none)
  ∧ hammingGate gateExample = some (List.replicate 25 30)
  ∧ maxHammingOf (sortByDistance gateExample) = 5
  ∧ (∀ m ∈ List.replicate 25 (30 : ℤ), ¬ m ≤ maxHammingOf (sortByDistance gateExample)) := by
  refine ⟨?_, by decide, by decide, by decide⟩
  intro ms hlt
  rw [hammingGate]
  split
  · rfl
  · simp [hlt]

/-! ### Id filter — the reference access can be out of bounds -/

/-- C10 (code bug): every id surviving the filter is a multiple of 5, but when
the detector reports only markers whose ids are not multiples of 5 (here the
single id 1) the filtered list is empty while the emptiness check at
ArUcoTracker.cpp line 261 has already passed, so the `ids[0]` read at line 270
is out of bounds. -/
theorem referencePrefix_oob :
    (∀ ids : List ℤ, ∀ id ∈ filterIds ids, id % 5 = 0)
  ∧ ([(1 : ℤ)] ≠ [] ∧ filterIds [1] = [] ∧ referencePrefix [1] true = none) := by
  constructor
  · intro ids id hid
    have hmem := List.mem_filter.mp hid
    simpa using hmem.2
  · exact ⟨by decide, by decide, by decide⟩

/-! ### Pose log — the novelty check only covers the scanned prefix -/

theorem scanPoses_fst (far : PoseM → Bool) (poses : List PoseM) :
    (scanPoses far poses).1 = poses.all far := by
  induction poses with
  | nil => rfl
  | cons p rest ih =>
      rw [scanPoses, List.all_cons]
      by_cases hf : far p
      · rw [if_pos hf, hf, Bool.true_and, ih]
      · rw [if_neg hf]
        rw [Bool.not_eq_true] at hf
        simp [hf]

theorem scanPoses_snd_mem (far : PoseM → Bool) (poses : List PoseM) (id : ℤ) :
    id ∈ (scanPoses far poses).2 ↔ ∃ q ∈ scannedPrefix far poses, id ∈ q.observed := by
  induction poses with
  | nil => simp [scanPoses, scannedPrefix]
  | cons p rest ih =>
      by_cases hf : far p
      · rw [scanPoses, if_pos hf]
        have hpre : scannedPrefix far (p :: rest) = p :: scannedPrefix far rest := by
          simp [scannedPrefix, List.takeWhile_cons, List.dropWhile_cons, hf]
        rw [hpre]
        simp only [List.mem_append, List.mem_cons]
        constructor
        · rintro (h | h)
          · exact ⟨p, Or.inl rfl, h⟩
          · obtain ⟨q, hq, hqid⟩ := ih.mp h
            exact ⟨q, Or.inr hq, hqid⟩
        · rintro ⟨q, hq | hq, hqid⟩
          · exact Or.inl (hq ▸ hqid)
          · exact Or.inr (ih.mpr ⟨q, hq, hqid⟩)
      · rw [scanPoses, if_neg hf]
        have hpre : scannedPrefix far (p :: rest) = [p] := by
          simp [scannedPrefix, List.takeWhile_cons, List.dropWhile_cons, hf]
        rw [hpre]
        simp

/-- C5 (counterexample): with no pose far, the current pose observing only
marker 5, and a log whose first pose is near and observes marker 0 while its
second pose observes marker 5, the code appends — the scan broke at the first
pose, so marker 5 counts as unseen — although the claim requires no append,
marker 5 being observed by a previously logged pose. -/
theorem poseLog_counterexample :
    addPoseDecision farNone posesCE [5] = true
  ∧ claimAppend farNone posesCE [5] = false
  ∧ logUpdate farNone posesCE poseCE [5] = posesCE ++ [poseCE]
  ∧ posesCE ++ [poseCE] ≠ posesCE :=
  ⟨by decide, by decide, by decide, by decide⟩

/-- C5 (amended): the record is appended if and only if either every
previously logged pose is far (position or angle delta above its threshold),
or some detected marker id is observed by none of the scanned poses — the
scan visiting the leading far poses and the first pose within both
thresholds; otherwise the log is unchanged. -/
theorem poseLog_append_iff (far : PoseM → Bool) (poses : List PoseM) (p : PoseM)
    (ids : List ℤ) :
    (logUpdate far poses p ids = poses ++ [p] ∨ logUpdate far poses p ids = poses)
  ∧ (logUpdate far poses p ids = poses ++ [p] ↔
      ((∀ q ∈ poses, far q = true) ∨
        ∃ id ∈ ids, ∀ q ∈ scannedPrefix far poses, id ∉ q.observed)) := by
  have hne : poses ++ [p] ≠ poses := by
    intro h
    have := congrArg List.length h
    simp at this
  have hdec : addPoseDecision far poses ids = true ↔
      ((∀ q ∈ poses, far q = true) ∨
        ∃ id ∈ ids, ∀ q ∈ scannedPrefix far poses, id ∉ q.observed) := by
    rw [addPoseDecision, Bool.or_eq_true, scanPoses_fst, List.all_eq_true]
    constructor
    · rintro (h | h)
      · exact Or.inl h
      · rw [List.any_eq_true] at h
        obtain ⟨id, hid, hmem⟩ := h
        rw [Bool.not_eq_true'] at hmem
        refine Or.inr ⟨id, hid, fun q hq hqid => ?_⟩
        have hin : id ∈ (scanPoses far poses).2 :=
          (scanPoses_snd_mem far poses id).mpr ⟨q, hq, hqid⟩
        have hc : (scanPoses far poses).2.contains id = true := by simpa using hin
        rw [hmem] at hc
        exact Bool.false_ne_true hc
    · rintro (h | h)
      · exact Or.inl h
      · obtain ⟨id, hid, hnone⟩ := h
        refine Or.inr (List.any_eq_true.mpr ⟨id, hid, ?_⟩)
        rw [Bool.not_eq_true']
        have hnm : id ∉ (scanPoses far poses).2 := fun hmem => by
          obtain ⟨q, hq, hqid⟩ := (scanPoses_snd_mem far poses id).mp hmem
          exact hnone q hq hqid
        simpa using hnm
  constructor
  · rw [logUpdate]
    by_cases hd : addPoseDecision far poses ids
    · exact Or.inl (if_pos hd)
    · exact Or.inr (if_neg hd)
  · rw [logUpdate]
    by_cases hd : addPoseDecision far poses ids
    · rw [if_pos hd]
      simp only [true_iff, iff_true_intro rfl]
      exact (hdec.mp hd)
    · rw [if_neg hd]
      constructor
      · intro h
        exact absurd h.symm hne
      · intro h
        exact absurd (hdec.mpr h) hd

/-! ### AddFrames — errors abort the batch, but the first-batch exposure list
persists -/

theorem addFramesRest_error (o : MatchOracle) (s1 : BuilderState)
    (batch : List RawFrameM) (e : BuildError) (s2 : BuilderState)
    (h : addFramesRest o s1 batch = (some e, s2)) : s2 = s1 := by
  rw [addFramesRest] at h
  cases hfe : frameError s1.checkBlur batch with
  | some e0 =>
      rw [hfe] at h
      exact ((Prod.mk.injEq _ _ _ _).mp h).2.symm
  | none =>
      rw [hfe] at h
      by_cases hc1 : ((pairList batch.length).any fun pr => List.isEmpty (o.pairwise pr.1 pr.2)) = true
      · rw [if_pos hc1] at h
        exact ((Prod.mk.injEq _ _ _ _).mp h).2.symm
      · rw [if_neg hc1] at h
        by_cases hc2 : s1.frames.length ≠ 0 ∧
            (globalGraphs o s1.frames batch.length).length ≤
              (if s1.frames.length < 5 then 0 else kMinPairs)
        · rw [if_pos hc2] at h
          exact ((Prod.mk.injEq _ _ _ _).mp h).2.symm
        · rw [if_neg hc2] at h
          have hcn := ((Prod.mk.injEq _ _ _ _).mp h).1
          simp at hcn

/-- C1 (counterexample): on a fresh builder the exposure-time list is recorded
before the blur check runs, so a first batch failing with BLURRY leaves the
builder with a non-empty exposure list — the accumulated state is not exactly
what it was before the call. -/
theorem addFrames_mutates_exposures :
    (addFrames oracleCE builderCE batchCE).1 = some BuildError.blurry
  ∧ (addFrames oracleCE builderCE batchCE).2.exposures = [10000000]
  ∧ builderCE.exposures = []
  ∧ (addFrames oracleCE builderCE batchCE).2 ≠ builderCE :=
  ⟨by decide, by decide, by decide, by decide⟩

/-- C1 (amended): when `AddFrames` raises BLURRY, NOT_ENOUGH_FEATURES,
NO_PAIRWISE_MATCHES or NO_GLOBAL_MATCHES, the stored frame list, the match
graph and the frame-index counter are exactly what they were before the call,
and so is the exposure-time list unless it was still empty — on the very
first batch the exposure times recorded at entry persist even though the
batch is aborted. -/
theorem addFrames_error_preserves_state (o : MatchOracle) (s : BuilderState)
    (batch : List RawFrameM) (e : BuildError) (s2 : BuilderState)
    (h : addFrames o s batch = (some e, s2)) (he : e ≠ BuildError.assertFailure) :
    s2.frames = s.frames ∧ s2.graph = s.graph ∧ s2.index = s.index
  ∧ s2.checkBlur = s.checkBlur
  ∧ (s.exposures ≠ [] → s2.exposures = s.exposures)
  ∧ (s.exposures = [] → s2.exposures = batch.map RawFrameM.time) := by
  rw [addFrames] at h
  split at h
  · rename_i hemp
    have h2 := addFramesRest_error o _ batch e s2 h
    subst h2
    refine ⟨rfl, rfl, rfl, rfl, fun hne => ?_, fun _ => rfl⟩
    exact absurd (List.isEmpty_iff.mp hemp) hne
  · split at h
    · have h2 := addFramesRest_error o s batch e s2 h
      subst h2
      rename_i hemp _
      refine ⟨rfl, rfl, rfl, rfl, fun _ => rfl, fun hz => ?_⟩
      exact absurd (List.isEmpty_iff.mpr hz) hemp
    · have hc := ((Prod.mk.injEq _ _ _ _).mp h).1
      injection hc with hc2
      exact absurd hc2.symm he

/-- Witness for `addFrames_error_preserves_state` at a concrete failing batch. -/
theorem addFrames_error_preserves_state_witness :
    addFrames oracleCE builderW batchW = (some BuildError.notEnoughFeatures, builderW)
  ∧ BuildError.notEnoughFeatures ≠ BuildError.assertFailure
  ∧ (builderW.frames = builderW.frames ∧ builderW.graph = builderW.graph
      ∧ builderW.index = builderW.index ∧ builderW.checkBlur = builderW.checkBlur
      ∧ (builderW.exposures ≠ [] → builderW.exposures = builderW.exposures)
      ∧ (builderW.exposures = [] → builderW.exposures = batchW.map RawFrameM.time)) :=
  ⟨by decide, by decide,
    addFrames_error_preserves_state oracleCE builderW batchW BuildError.notEnoughFeatures
      builderW (by decide) (by decide)⟩

/-! ### PnP dispatch — solver choice and inlier ownership -/

theorem flat4_length {α β : Type} (f : α → Fin 4 → β) (l : List α) :
    (flat4 f l).length = 4 * l.length := by
  induction l with
  | nil => rfl
  | cons k rest ih =>
      rw [flat4, List.length_append, ih]
      simp [Nat.mul_succ]
      omega

theorem flat4_getElem {α β : Type} (f : α → Fin 4 → β) (l : List α) (c : ℕ)
    (hc : c < 4 * l.length) :
    (flat4 f l)[c]? = (l[c / 4]?).map fun k => f k (cornerFin c) := by
  induction l generalizing c with
  | nil => simp at hc
  | cons k rest ih =>
      by_cases h4 : c < 4
      · interval_cases c <;> simp [flat4, cornerFin]
      · obtain ⟨cp, rfl⟩ : ∃ cp, c = 4 + cp := ⟨c - 4, by omega⟩
        have hlen : ([f k 0, f k 1, f k 2, f k 3] : List β).length = 4 := rfl
        have hskip : (flat4 f (k :: rest))[4 + cp]? = (flat4 f rest)[cp]? := by
          rw [flat4, List.getElem?_append_right (by simp)]
          simp
        have hdiv : (4 + cp) / 4 = 1 + cp / 4 := by omega
        have hmod : cornerFin (4 + cp) = cornerFin cp := by
          simp [cornerFin, Fin.ext_iff]
        rw [hskip, hdiv, hmod]
        have hrest : cp < 4 * rest.length := by simp at hc; omega
        rw [ih cp hrest]
        have : (k :: rest)[1 + cp / 4]? = rest[cp / 4]? := by
          rw [Nat.add_comm]
          simp
        rw [this]

/-- C6: with exactly one known marker the correspondence list has exactly 4
object points, the pose is solved with plain (non-RANSAC) P3P and that marker
is the only recorded inlier; with two or more known markers the pose is solved
with RANSAC-based EPNP and the recorded inliers are exactly the markers owning
the corner correspondences RANSAC reports — corner `c` of the flattened lists
belongs to marker `markerID[c / 4]`. -/
theorem pnp_dispatch_spec (markers : List (ℤ × MarkerM)) (obs : List Obs) (rc : List ℕ) :
    ((knownCorrs markers obs).length = 1 →
       solveKindOf (knownCorrs markers obs) = SolveKind.p3p
     ∧ (worldPoints (knownCorrs markers obs)).length = 4
     ∧ ∀ k0, knownCorrs markers obs = [k0] → inlierIds (knownCorrs markers obs) rc = [k0.1])
  ∧ (2 ≤ (knownCorrs markers obs).length →
       solveKindOf (knownCorrs markers obs) = SolveKind.ransacEpnp
     ∧ inlierIds (knownCorrs markers obs) rc
         = rc.map (fun c => (markerIDs (knownCorrs markers obs)).getD (c / 4) 0)
     ∧ ∀ c ∈ rc, c < 4 * (knownCorrs markers obs).length →
         ∃ k, (knownCorrs markers obs)[c / 4]? = some k
           ∧ (markerIDs (knownCorrs markers obs)).getD (c / 4) 0 = k.1
           ∧ (worldPoints (knownCorrs markers obs))[c]? = some (k.2.1.world (cornerFin c))
           ∧ (imagePoints (knownCorrs markers obs))[c]? = some (k.2.2 (cornerFin c))) := by
  constructor
  · intro h1
    have hw : (worldPoints (knownCorrs markers obs)).length = 4 := by
      rw [worldPoints, flat4_length, h1]
    refine ⟨by rw [solveKindOf, if_pos hw], hw, fun k0 hk0 => ?_⟩
    rw [inlierIds, if_pos hw, hk0, markerIDs]
    rfl
  · intro h2
    have hw : (worldPoints (knownCorrs markers obs)).length
        = 4 * (knownCorrs markers obs).length := by
      rw [worldPoints, flat4_length]
    have hne : (worldPoints (knownCorrs markers obs)).length ≠ 4 := by omega
    refine ⟨by rw [solveKindOf, if_neg hne], by rw [inlierIds, if_neg hne], ?_⟩
    intro c _ hc
    have hdiv : c / 4 < (knownCorrs markers obs).length := by omega
    refine ⟨(knownCorrs markers obs)[c / 4], List.getElem?_eq_getElem hdiv, ?_, ?_, ?_⟩
    · have hmap : (markerIDs (knownCorrs markers obs))[c / 4]?
          = some (knownCorrs markers obs)[c / 4].1 := by
        rw [markerIDs, List.getElem?_map, List.getElem?_eq_getElem hdiv]
        rfl
      rw [List.getD_eq_getElem?_getD, hmap]
      rfl
    · rw [worldPoints, flat4_getElem _ _ c (by omega), List.getElem?_eq_getElem hdiv]
      rfl
    · rw [imagePoints, flat4_getElem _ _ c (by omega), List.getElem?_eq_getElem hdiv]
      rfl

/-- Witness markers for `pnp_dispatch_spec`: ids 5 and 10 with distinct poses. -/
def markersWit : List (ℤ × MarkerM) :=
  [(5, ⟨0, 0, 0, 1, 0, 0, 0⟩), (10, ⟨7, 0, 0, 1, 0, 0, 0⟩)]

/-- Witness observations: both known markers detected. -/
def obsWit : List Obs :=
  [⟨5, fun _ => (0, 0)⟩, ⟨10, fun _ => (1, 1)⟩]

/-- Witness for `pnp_dispatch_spec` in the two-marker RANSAC branch. -/
theorem pnp_dispatch_spec_witness :
    2 ≤ (knownCorrs markersWit obsWit).length
  ∧ (solveKindOf (knownCorrs markersWit obsWit) = SolveKind.ransacEpnp
     ∧ inlierIds (knownCorrs markersWit obsWit) [0, 5]
         = [0, 5].map (fun c => (markerIDs (knownCorrs markersWit obsWit)).getD (c / 4) 0)
     ∧ ∀ c ∈ [0, 5], c < 4 * (knownCorrs markersWit obsWit).length →
         ∃ k, (knownCorrs markersWit obsWit)[c / 4]? = some k
           ∧ (markerIDs (knownCorrs markersWit obsWit)).getD (c / 4) 0 = k.1
           ∧ (worldPoints (knownCorrs markersWit obsWit))[c]? = some (k.2.1.world (cornerFin c))
           ∧ (imagePoints (knownCorrs markersWit obsWit))[c]? = some (k.2.2 (cornerFin c))) :=
  ⟨by simp [knownCorrs, markersWit, obsWit, lookupM],
    (pnp_dispatch_spec markersWit obsWit [0, 5]).2
      (by simp [knownCorrs, markersWit, obsWit, lookupM])⟩

/-! ### Reference marker — invariant proofs -/

theorem lookupM_append_of_isSome (l t : List (ℤ × MarkerM)) (x : ℤ)
    (h : (lookupM l x).isSome) : lookupM (l ++ t) x = lookupM l x := by
  induction l with
  | nil => simp [lookupM] at h
  | cons p rest ih =>
      obtain ⟨k, m⟩ := p
      rw [List.cons_append, lookupM, lookupM]
      by_cases hk : k = x
      · rw [if_pos hk, if_pos hk]
      · rw [if_neg hk, if_neg hk]
        rw [lookupM, if_neg hk] at h
        exact ih h

theorem insertLoop_preserves (ok : ℤ → Bool) (ini : ℤ → MarkerM) (ids : List ℤ)
    (ms : List (ℤ × MarkerM)) (x : ℤ) (h : (lookupM ms x).isSome) :
    lookupM (insertLoop ok ini ids ms).1 x = lookupM ms x
  ∧ x ∉ (insertLoop ok ini ids ms).2 := by
  induction ids generalizing ms with
  | nil => exact ⟨rfl, by simp [insertLoop]⟩
  | cons id rest ih =>
      by_cases hk : (lookupM ms id).isSome
      · rw [insertLoop, if_pos hk]
        exact ih ms h
      · rw [insertLoop, if_neg hk]
        by_cases hok : ok id
        · rw [if_pos hok]
          have hne : x ≠ id := by
            intro hxe
            rw [hxe] at h
            exact hk h
          have happ : lookupM (ms ++ [(id, ini id)]) x = lookupM ms x :=
            lookupM_append_of_isSome ms [(id, ini id)] x h
          have h2 : (lookupM (ms ++ [(id, ini id)]) x).isSome := by
            rw [happ]
            exact h
          obtain ⟨ih1, ih2⟩ := ih (ms ++ [(id, ini id)]) h2
          refine ⟨by rw [ih1, happ], ?_⟩
          simp only [List.mem_cons]
          rintro (hx | hx)
          · exact hne hx
          · exact ih2 hx
        · rw [if_neg hok]
          exact ih ms h

theorem mapLocal_preserves (l : List (ℤ × MarkerM)) (newIds : List ℤ)
    (lo : ℤ → MarkerM) (x : ℤ) (hx : x ∉ newIds) :
    lookupM (l.map fun p => if p.1 ∈ newIds then (p.1, lo p.1) else p) x = lookupM l x := by
  induction l with
  | nil => rfl
  | cons p rest ih =>
      obtain ⟨k, m⟩ := p
      rw [List.map_cons]
      by_cases hm : k ∈ newIds
      · rw [if_pos hm]
        have hk : k ≠ x := fun he => hx (he ▸ hm)
        rw [lookupM, lookupM, if_neg hk, if_neg hk]
        exact ih
      · rw [if_neg hm]
        rw [lookupM, lookupM]
        by_cases hk : k = x
        · rw [if_pos hk, if_pos hk]
        · rw [if_neg hk, if_neg hk]
          exact ih

theorem baMap_preserves (l : List (ℤ × MarkerM)) (ref : ℤ) (solved : ℤ → MarkerM) :
    lookupM (l.map fun p => if p.1 = ref then p else (p.1, solved p.1)) ref
      = lookupM l ref := by
  induction l with
  | nil => rfl
  | cons p rest ih =>
      obtain ⟨k, m⟩ := p
      rw [List.map_cons]
      by_cases hk : k = ref
      · rw [if_pos hk, lookupM, lookupM, if_pos hk, if_pos hk]
      · rw [if_neg hk, lookupM, lookupM, if_neg hk, if_neg hk]
        exact ih

theorem trackMerge_inv (e : TrackEv) (i0 : ℤ) (rest : List ℤ) (s1 : TrackerSt)
    (hs1 : RefInv s1) :
    RefInv (if (i0 :: rest).all (fun id => (lookupM s1.markers id).isNone) then s1
      else TrackerSt.mk
        ((insertLoop e.solveOk e.newInit (i0 :: rest) s1.markers).1.map fun p =>
          if p.1 ∈ (insertLoop e.solveOk e.newInit (i0 :: rest) s1.markers).2 then
            (p.1, e.localOut p.1)
          else p)
        s1.reference) := by
  by_cases hall : ((i0 :: rest).all fun id => (lookupM s1.markers id).isNone) = true
  · rw [if_pos hall]
    exact hs1
  · rw [if_neg hall]
    intro r hr
    have hlk : lookupM s1.markers r = some originMarker := hs1 r hr
    have hsome : (lookupM s1.markers r).isSome := by rw [hlk]; rfl
    obtain ⟨h1, h2⟩ :=
      insertLoop_preserves e.solveOk e.newInit (i0 :: rest) s1.markers r hsome
    show lookupM _ r = some originMarker
    rw [mapLocal_preserves _ _ _ r h2, h1, hlk]

theorem trackStep_inv (e : TrackEv) (s : TrackerSt) (h : RefInv s) :
    RefInv (trackStep e s) := by
  rw [trackStep]
  by_cases hemp : e.ids.isEmpty
  · rw [if_pos hemp]
    exact h
  · rw [if_neg hemp]
    cases hfil : filterIds e.ids with
    | nil => exact h
    | cons i0 rest =>
        have hs1 : RefInv
            (if s.markers.isEmpty then TrackerSt.mk [(i0, originMarker)] (some i0) else s) := by
          by_cases hm : s.markers.isEmpty
          · rw [if_pos hm]
            intro r hr
            have hri : r = i0 := by
              injection hr with hr2
              exact hr2.symm
            subst hri
            simp [lookupM]
          · rw [if_neg hm]
            exact h
        exact trackMerge_inv e i0 rest _ hs1

theorem baStep_inv (solved : ℤ → MarkerM) (s : TrackerSt) (h : RefInv s) :
    RefInv (baStep solved s) := by
  rw [baStep]
  cases href : s.reference with
  | none => exact h
  | some ref =>
      intro r hr
      have : r = ref := by
        injection hr with hr2
        exact hr2.symm
      subst this
      show lookupM _ r = some originMarker
      rw [baMap_preserves]
      exact h r href

theorem runTracker_inv (evs : List Ev) : RefInv (runTracker evs) := by
  rw [runTracker]
  have hgen : ∀ s : TrackerSt, RefInv s →
      RefInv (evs.foldl (fun s ev => trackerStep ev s) s) := by
    induction evs with
    | nil => exact fun s hs => hs
    | cons ev rest ih =>
        intro s hs
        rw [List.foldl_cons]
        refine ih (trackerStep ev s) ?_
        cases ev with
        | track e => exact trackStep_inv e s hs
        | ba solved => exact baStep_inv solved s hs
  exact hgen (TrackerSt.mk [] none) (fun r hr => by simp at hr)

/-- C3: in every reachable tracker state, once the reference marker (the
first marker ever inserted) exists, its map entry is the origin — position
`(0, 0, 0)` and identity orientation — and it stays so across every
`TrackFrame` call and every background `BundleAdjust` pass, whose solver may
write arbitrary values into every parameter block except the reference
blocks held constant and written back unchanged. -/
theorem reference_marker_fixed (evs : List Ev) (r : ℤ)
    (h : (runTracker evs).reference = some r) :
    lookupM (runTracker evs).markers r = some originMarker :=
  runTracker_inv evs r h

/-- Witness for `reference_marker_fixed`: one frame detecting marker 5 fixes
it as reference at the origin. -/
theorem reference_marker_fixed_witness :
    (runTracker evsWit).reference = some 5
  ∧ lookupM (runTracker evsWit).markers 5 = some originMarker :=
  ⟨by decide, reference_marker_fixed evsWit 5 (by decide)⟩

/-! ### Shutdown — the destructor never notifies the condition variable -/

/-- C4 (code bug): the destructor sets the termination flag and joins, but it
never notifies the condition variable; without spurious wakeups the blocked
background thread therefore never re-evaluates its predicate and never
exits — every iterate of the system after the store is the same blocked
state — so `thread_.join()` blocks forever. A single pending notification
would have driven the thread to exit in two steps. -/
theorem destructor_never_notifies :
    DtorAct.notifyAll ∉ dtorActions
  ∧ DtorAct.storeRunningFalse ∈ dtorActions
  ∧ DtorAct.joinThread ∈ dtorActions
  ∧ (∀ n : ℕ, bgStep^[n] afterDtorStore = afterDtorStore)
  ∧ (∀ n : ℕ, (bgStep^[n] afterDtorStore).bg ≠ BgPhase.exited)
  ∧ (bgStep^[2] afterDtorNotify).bg = BgPhase.exited := by
  have hfix : bgStep afterDtorStore = afterDtorStore := by decide
  have hiter : ∀ n : ℕ, bgStep^[n] afterDtorStore = afterDtorStore := by
    intro n
    induction n with
    | zero => rfl
    | succ n ih => rw [Function.iterate_succ_apply', ih, hfix]
  refine ⟨by decide, by decide, by decide, hiter, fun n => ?_, by decide⟩
  rw [hiter n]
  decide

end MobileAR

